import Mathlib

/-!
Shallow embedding of the `betawin1/blockchain` repository
(`src/blockchain.py`, the raw-socket binding, and `src/blockchain_render.py`,
the HTTP binding) and proofs about its ledger/consensus core.

Modelling conventions, stated once:

* Python `float` amounts/timestamps are modelled as exact rationals `ℚ`;
  IEEE-754 rounding is outside the scope of this development.  All constants
  of the program (`6.25`, `21_000_000`) are exactly representable.
* `Block.compute_hash` in the source is
  `sha256(json.dumps({index, prev_hash, timestamp, transactions, nonce},
  sort_keys=True)).hexdigest()`.  The canonical JSON encoding with sorted keys
  is injective on those five fields, so we capture the hashed content as the
  record `HashInput` and abstract `sha256 ∘ dumps` as a parameter
  `H : HashInput → String`.  Every definition and theorem is uniform in `H`.
* The balances `defaultdict(float)` is modelled as an association list with
  lookup defaulting to `0`.  Reading a missing key materialises a `0.0` entry
  in the Python dict; that is invisible in the address → balance mapping
  (`getBal`) and in the balance sum, which is what the spec calls the Ledger,
  so reads are modelled as pure.
* `Block.mine` is an unbounded search; it is modelled with explicit fuel and
  returns `none` when the fuel runs out before a hash meets the target.
* Exceptions (`raise ValueError`) are modelled with `Except`;
  a handler that dies on an exception leaves the node state unchanged.

The reducibility attributes below only let concrete rational arithmetic
evaluate inside `decide`; they have no effect on what is provable.
-/

set_option allowUnsafeReducibility true

attribute [local semireducible] Rat.add Rat.sub Rat.mul Rat.inv Rat.ofScientific

/-- `MAX_SUPPLY = 21_000_000` from both source files. -/
def MAX_SUPPLY : ℚ := 21000000

/-- `BLOCK_REWARD = 6.25` from both source files. -/
def BLOCK_REWARD : ℚ := 25 / 4

/-- `DIFFICULTY = 4` (number of leading zeros) from both source files. -/
def DIFFICULTY : Nat := 4

/-- The 64-character all-zero previous hash `'0'*64` of the genesis block. -/
def zeros64 : String := String.mk (List.replicate 64 '0')

/-- A transaction dict `{'sender': .., 'recipient': .., 'amount': ..}`;
equality is structural, as for Python dicts. -/
structure Tx where
  sender : String
  recipient : String
  amount : ℚ
deriving DecidableEq

/-- The content hashed by `Block.compute_hash`: the five canonical fields
serialised by `json.dumps(..., sort_keys=True)`.  The sorted-keys JSON
encoding is injective on these fields, so the record is a faithful image of
the hashed byte string. -/
structure HashInput where
  index : Nat
  prev_hash : String
  timestamp : ℚ
  transactions : List Tx
  nonce : Nat
deriving DecidableEq

/-- A block object: the five canonical fields plus the stored `hash`
attribute (which, for inbound blocks, is the *declared* hash and need not
equal the recomputed one). -/
structure Block where
  index : Nat
  prev_hash : String
  timestamp : ℚ
  transactions : List Tx
  nonce : Nat
  hash : String
deriving DecidableEq

/-- The five canonical fields of a block, i.e. the dict passed to
`json.dumps` inside `compute_hash` (the stored `hash` attribute is not
part of it). -/
def canonicalFields (b : Block) : HashInput :=
  ⟨b.index, b.prev_hash, b.timestamp, b.transactions, b.nonce⟩

/-- `Block.compute_hash`, with `sha256 ∘ canonical-json-dumps` abstracted
as `H`. -/
def compute_hash (H : HashInput → String) (b : Block) : String :=
  H (canonicalFields b)

/-- `Block.__init__(index, prev_hash, transactions, timestamp, nonce)`:
stores the five fields and sets `self.hash = self.compute_hash()`.
(The constructor default `timestamp or time.time()` is an external input;
we pass the effective timestamp explicitly.) -/
def mkBlock (H : HashInput → String) (index : Nat) (prev : String)
    (txs : List Tx) (ts : ℚ) (nonce : Nat) : Block :=
  { index := index
    prev_hash := prev
    timestamp := ts
    transactions := txs
    nonce := nonce
    hash := H ⟨index, prev, ts, txs, nonce⟩ }

/-- `s.startswith('0'*d)`: the string has at least `d` characters and its
first `d` characters are all `'0'`. -/
def startsWith0 (s : String) (d : Nat) : Bool :=
  decide (d ≤ s.length) && (s.data.take d).all (fun c => c == '0')

/-- One iteration of the mining loop body: `self.nonce += 1;
self.hash = self.compute_hash()`. -/
def bumpNonce (H : HashInput → String) (b : Block) : Block :=
  { b with
    nonce := b.nonce + 1
    hash := H ⟨b.index, b.prev_hash, b.timestamp, b.transactions, b.nonce + 1⟩ }

/-- `Block.mine(difficulty)` (socket binding only): loop until
`self.hash.startswith('0'*difficulty)`, bumping the nonce and rehashing.
The search is unbounded in the source; `fuel` bounds it here and `none`
means the bound was reached before success. -/
def mine (H : HashInput → String) : Nat → Block → Nat → Option Block
  | 0, b, d => if startsWith0 b.hash d then some b else none
  | fuel + 1, b, d =>
      if startsWith0 b.hash d then some b else mine H fuel (bumpNonce H b) d

/-- The mutable node state shared by both bindings: `self.chain`,
`self.pending_tx`, `self.balances`, `self.total_minted`.  (The peer set and
persistence are transport plumbing with no effect on these fields.) -/
structure NodeState where
  chain : List Block
  pending_tx : List Tx
  balances : List (String × ℚ)
  total_minted : ℚ
deriving DecidableEq

/-- `self.balances[a]` as a read: first binding of `a`, defaulting to `0`
(`defaultdict(float)`). -/
def getBal : List (String × ℚ) → String → ℚ
  | [], _ => 0
  | (k, w) :: t, a => if k = a then w else getBal t a

/-- `self.balances[a] = v`: overwrite the first binding of `a`, or append a
new binding. -/
def setBal : List (String × ℚ) → String → ℚ → List (String × ℚ)
  | [], a, v => [(a, v)]
  | (k, w) :: t, a, v =>
      if k = a then (k, v) :: t else (k, w) :: setBal t a v

/-- `self.balances[a] += v`. -/
def addBal (m : List (String × ℚ)) (a : String) (v : ℚ) : List (String × ℚ) :=
  setBal m a (getBal m a + v)

/-- The per-block ledger update loop shared by `mine_pending` and the
`NEW_BLOCK` handlers: for each transaction in order, debit the sender and
credit the recipient. -/
def applyTxs (m : List (String × ℚ)) (txs : List Tx) : List (String × ℚ) :=
  txs.foldl
    (fun acc tx => addBal (addBal acc tx.sender (-tx.amount)) tx.recipient tx.amount) m

/-- Sum of all balances recorded in the ledger. -/
def balSum (m : List (String × ℚ)) : ℚ :=
  (m.map Prod.snd).sum

/-- Net flow of a list of transactions into address `a`. -/
def netFlow (a : String) : List Tx → ℚ
  | [] => 0
  | tx :: t =>
      (if tx.recipient = a then tx.amount else 0)
        - (if tx.sender = a then tx.amount else 0) + netFlow a t

/-- `Blockchain.add_transaction(sender, recipient, amount)`, identical in
both source files: raise `ValueError('Insufficient balance')` when
`self.balances[sender] < amount`, else append the transaction dict to
`self.pending_tx`.  (Broadcast and persistence do not touch this state.) -/
def add_transaction (st : NodeState) (sender recipient : String) (amount : ℚ) :
    Except String NodeState :=
  if getBal st.balances sender < amount then
    Except.error "Insufficient balance"
  else
    Except.ok { st with
      pending_tx := st.pending_tx ++ [⟨sender, recipient, amount⟩] }

/-- `reward = min(BLOCK_REWARD, MAX_SUPPLY - self.total_minted)` computed by
`mine_pending` (and inlined in the `NEW_BLOCK` handlers). -/
def mineReward (st : NodeState) : ℚ :=
  min BLOCK_REWARD (MAX_SUPPLY - st.total_minted)

/-- `Blockchain.mine_pending(miner_address)` of `blockchain.py`: build
`Block(len(chain), chain[-1].hash, list(pending_tx))`, mine it at
`DIFFICULTY`, append it, credit the miner the capped reward, advance
`total_minted`, apply each pending transaction, clear the mempool.
`none` models the `IndexError` on an (unreachable) empty chain, and mining
fuel exhaustion. -/
def mine_pending (H : HashInput → String) (fuel : Nat) (st : NodeState)
    (miner : String) (ts : ℚ) : Option (NodeState × Block) :=
  match st.chain.getLast? with
  | none => none
  | some last =>
    match mine H fuel (mkBlock H st.chain.length last.hash st.pending_tx ts 0)
        DIFFICULTY with
    | none => none
    | some b =>
        some ({ chain := st.chain ++ [b]
                pending_tx := []
                balances := applyTxs (addBal st.balances miner (mineReward st))
                  st.pending_tx
                total_minted := st.total_minted + mineReward st }, b)

/-- `Blockchain.is_valid_block(blk)` of `blockchain.py`: reconstruct the
block from the declared fields (recomputing the hash) and check
`block.hash == blk['hash'] and block.prev_hash == self.chain[-1].hash`.
There is no index check here (the caller checks it) and no difficulty
check anywhere.  `chain[-1]` on an empty chain would raise; unreachable. -/
def is_valid_block (H : HashInput → String) (st : NodeState) (blk : Block) : Bool :=
  match st.chain.getLast? with
  | none => false
  | some last =>
      H (canonicalFields blk) == blk.hash && blk.prev_hash == last.hash

/-- `Blockchain.is_valid_block(blk)` of `blockchain_render.py`: index must
equal `len(self.chain)`, `prev_hash` must equal the head's hash, and the
recomputed hash must equal the declared one.  Again no difficulty check. -/
def is_valid_block_render (H : HashInput → String) (st : NodeState)
    (blk : Block) : Bool :=
  (blk.index == st.chain.length) &&
    match st.chain.getLast? with
    | none => false
    | some prev =>
        blk.prev_hash == prev.hash && H (canonicalFields blk) == blk.hash

/-- The acceptance guard of the socket binding's `NEW_BLOCK` handler:
`d['index'] == len(self.chain) and self.is_valid_block(d)`. -/
def newBlockOk (H : HashInput → String) (st : NodeState) (d : Block) : Bool :=
  (d.index == st.chain.length) && is_valid_block H st d

/-- The `NEW_BLOCK` branch of `blockchain.py`'s socket handler (and,
equivalently, the `/block` route of `blockchain_render.py`): when the guard
accepts, append the block, apply its transactions, advance `total_minted` by
the capped reward — note that no balance is credited with that reward, the
inbound block names no miner — and clear the mempool.  When the guard
rejects, nothing happens. -/
def handle_new_block (H : HashInput → String) (st : NodeState) (d : Block) :
    NodeState :=
  if newBlockOk H st d then
    { chain := st.chain ++ [d]
      pending_tx := []
      balances := applyTxs st.balances d.transactions
      total_minted := st.total_minted + mineReward st }
  else st

/-- The `NEW_TX` branch of the socket handler: if the transaction is not
already in the mempool (structural equality), call `add_transaction`; a
raised `ValueError` kills the handler thread, leaving the state unchanged. -/
def handle_new_tx (st : NodeState) (d : Tx) : NodeState :=
  if st.pending_tx.contains d then st
  else
    match add_transaction st d.sender d.recipient d.amount with
    | Except.ok st' => st'
    | Except.error _ => st

/-- `Blockchain.mine_pending` of `blockchain_render.py`.  In that file the
`Block` class defines only `__init__`, `compute_hash` and `to_dict` — there
is **no** `mine` method.  The body reads `self.chain[-1].hash`, constructs
the candidate block (no mutation of the node state), then evaluates
`block.mine(DIFFICULTY)`, which raises `AttributeError` and aborts before
any assignment to `chain`, `balances`, `total_minted` or `pending_tx`.
We model the call as returning the unchanged state and no block; the `none`
in the empty-chain branch is the (equally pre-mutation) `IndexError`. -/
def mine_pending_render (H : HashInput → String) (st : NodeState)
    (_miner : String) (ts : ℚ) : NodeState × Option Block :=
  match st.chain.getLast? with
  | none => (st, none)
  | some last =>
      let _candidateWhoseMineCallRaises :=
        mkBlock H st.chain.length last.hash st.pending_tx ts 0
      (st, none)

/-- `create_genesis` reached from a fresh `__init__` (no storage file):
`chain = [Block(0, '0'*64, [])]`, empty mempool, empty balances,
`total_minted = 0`. -/
def initState (H : HashInput → String) (ts : ℚ) : NodeState :=
  { chain := [mkBlock H 0 zeros64 [] ts 0]
    pending_tx := []
    balances := []
    total_minted := 0 }

/-- States reachable from the genesis state by the three mutating
operations (submit-transaction — locally or via `NEW_TX` —, mine-pending,
accept-inbound-block). -/
inductive Reachable (H : HashInput → String) : NodeState → Prop
  | init (ts : ℚ) : Reachable H (initState H ts)
  | tx (st st' : NodeState) (s r : String) (a : ℚ) :
      Reachable H st → add_transaction st s r a = Except.ok st' →
      Reachable H st'
  | newTx (st : NodeState) (d : Tx) :
      Reachable H st → Reachable H (handle_new_tx st d)
  | mined (st st' : NodeState) (m : String) (ts : ℚ) (fuel : Nat) (b : Block) :
      Reachable H st → mine_pending H fuel st m ts = some (st', b) →
      Reachable H st'
  | newBlock (st : NodeState) (d : Block) :
      Reachable H st → Reachable H (handle_new_block H st d)

/-- All blocks of a list extend, one link at a time, a previous block
`prev`: indices increase by one and each `prev_hash` equals the
predecessor's stored hash. -/
def linksFrom (prev : Block) : List Block → Bool
  | [] => true
  | b :: t =>
      (b.index == prev.index + 1) && (b.prev_hash == prev.hash) && linksFrom b t

/-- The chain-shape invariant claimed by the spec: nonempty, the head is a
genesis block (`index = 0`, `prev_hash = '0'*64`, no transactions), and
every later block has the successor index and links to its predecessor's
hash. -/
def chainLinked : List Block → Bool
  | [] => false
  | g :: t =>
      (g.index == 0) && (g.prev_hash == zeros64) && g.transactions.isEmpty &&
        linksFrom g t

/-! ### Ledger bookkeeping lemmas -/

theorem getBal_setBal (m : List (String × ℚ)) (a : String) (v : ℚ) (x : String) :
    getBal (setBal m a v) x = if a = x then v else getBal m x := by
  induction m with
  | nil => simp [setBal, getBal]
  | cons p t ih =>
    obtain ⟨k, w⟩ := p
    by_cases hk : k = a
    · subst hk
      by_cases hx : k = x <;> simp [setBal, getBal, hx]
    · by_cases hx : k = x
      · have hax : ¬ a = x := fun h => hk (hx.trans h.symm)
        have hxa : ¬ x = a := fun h => hax h.symm
        simp [setBal, getBal, hk, hx, hax, hxa]
      · simp [setBal, getBal, hk, hx, ih]

theorem getBal_addBal (m : List (String × ℚ)) (a : String) (v : ℚ) (x : String) :
    getBal (addBal m a v) x = getBal m x + if a = x then v else 0 := by
  unfold addBal
  rw [getBal_setBal]
  by_cases h : a = x
  · subst h; simp
  · simp [h]

theorem balSum_nil : balSum [] = 0 := rfl

theorem balSum_cons (k : String) (v : ℚ) (t : List (String × ℚ)) :
    balSum ((k, v) :: t) = v + balSum t := by
  simp [balSum]

theorem balSum_setBal (m : List (String × ℚ)) (a : String) (v : ℚ) :
    balSum (setBal m a v) = balSum m + v - getBal m a := by
  induction m with
  | nil => simp [setBal, getBal, balSum]
  | cons p t ih =>
    obtain ⟨k, w⟩ := p
    by_cases hk : k = a
    · subst hk
      rw [setBal, if_pos rfl, balSum_cons, balSum_cons, getBal, if_pos rfl]
      ring
    · rw [setBal, if_neg hk, balSum_cons, balSum_cons, ih, getBal, if_neg hk]
      ring

theorem balSum_addBal (m : List (String × ℚ)) (a : String) (v : ℚ) :
    balSum (addBal m a v) = balSum m + v := by
  unfold addBal
  rw [balSum_setBal]
  ring

theorem applyTxs_nil (m : List (String × ℚ)) : applyTxs m [] = m := rfl

theorem applyTxs_cons (m : List (String × ℚ)) (tx : Tx) (t : List Tx) :
    applyTxs m (tx :: t) =
      applyTxs (addBal (addBal m tx.sender (-tx.amount)) tx.recipient tx.amount) t := rfl

theorem balSum_applyTxs (m : List (String × ℚ)) (txs : List Tx) :
    balSum (applyTxs m txs) = balSum m := by
  induction txs generalizing m with
  | nil => rfl
  | cons tx t ih =>
    rw [applyTxs_cons, ih, balSum_addBal, balSum_addBal]
    ring

theorem netFlow_nil (x : String) : netFlow x [] = 0 := rfl

theorem netFlow_cons (x : String) (tx : Tx) (t : List Tx) :
    netFlow x (tx :: t) =
      (if tx.recipient = x then tx.amount else 0)
        - (if tx.sender = x then tx.amount else 0) + netFlow x t := rfl

theorem getBal_applyTxs (m : List (String × ℚ)) (txs : List Tx) (x : String) :
    getBal (applyTxs m txs) x = getBal m x + netFlow x txs := by
  induction txs generalizing m with
  | nil => simp [applyTxs_nil, netFlow_nil]
  | cons tx t ih =>
    rw [applyTxs_cons, ih, getBal_addBal, getBal_addBal, netFlow_cons]
    by_cases hs : tx.sender = x <;> by_cases hr : tx.recipient = x <;>
      simp only [hs, hr, if_pos, if_neg, if_true, if_false] <;> ring

/-! ### Mining lemmas -/

theorem startsWith0_zero (s : String) : startsWith0 s 0 = true := by
  simp [startsWith0]

theorem mine_some_startsWith0 (H : HashInput → String) (fuel : Nat) (b : Block)
    (d : Nat) (b' : Block) (h : mine H fuel b d = some b') :
    startsWith0 b'.hash d = true := by
  induction fuel generalizing b with
  | zero =>
    unfold mine at h
    by_cases hs : startsWith0 b.hash d = true
    · rw [if_pos hs] at h
      cases h
      exact hs
    · rw [if_neg hs] at h
      cases h
  | succ fuel ih =>
    unfold mine at h
    by_cases hs : startsWith0 b.hash d = true
    · rw [if_pos hs] at h
      cases h
      exact hs
    · rw [if_neg hs] at h
      exact ih _ h

theorem mine_zero_difficulty (H : HashInput → String) (fuel : Nat) (b : Block) :
    mine H fuel b 0 = some b := by
  cases fuel <;> simp [mine, startsWith0_zero]

theorem mine_canonical_fixed (H : HashInput → String) (fuel : Nat) (b : Block)
    (d : Nat) (b' : Block) (h : mine H fuel b d = some b') :
    b'.index = b.index ∧ b'.prev_hash = b.prev_hash ∧
      b'.timestamp = b.timestamp ∧ b'.transactions = b.transactions := by
  induction fuel generalizing b with
  | zero =>
    unfold mine at h
    by_cases hs : startsWith0 b.hash d = true
    · rw [if_pos hs] at h; cases h; exact ⟨rfl, rfl, rfl, rfl⟩
    · rw [if_neg hs] at h; cases h
  | succ fuel ih =>
    unfold mine at h
    by_cases hs : startsWith0 b.hash d = true
    · rw [if_pos hs] at h; cases h; exact ⟨rfl, rfl, rfl, rfl⟩
    · rw [if_neg hs] at h
      exact ih (bumpNonce H b) h

/-! ### Characterizations of the state-mutating operations -/

theorem add_transaction_error_iff (st : NodeState) (s r : String) (a : ℚ) :
    add_transaction st s r a = Except.error "Insufficient balance" ↔
      getBal st.balances s < a := by
  unfold add_transaction
  by_cases h : getBal st.balances s < a <;> simp [h]

theorem add_transaction_ok_iff (st : NodeState) (s r : String) (a : ℚ)
    (st' : NodeState) :
    add_transaction st s r a = Except.ok st' ↔
      ¬ getBal st.balances s < a ∧
        st' = { st with pending_tx := st.pending_tx ++ [⟨s, r, a⟩] } := by
  unfold add_transaction
  by_cases h : getBal st.balances s < a <;> simp [h, eq_comm]

/-- The state committed by a successful `mine_pending`, as written in the
source: append the block, credit the miner, apply the pending transactions,
advance `total_minted`, clear the mempool. -/
def mineCommit (st : NodeState) (miner : String) (b : Block) : NodeState :=
  { chain := st.chain ++ [b]
    pending_tx := []
    balances := applyTxs (addBal st.balances miner (mineReward st)) st.pending_tx
    total_minted := st.total_minted + mineReward st }

theorem mine_pending_some_iff (H : HashInput → String) (fuel : Nat)
    (st : NodeState) (m : String) (ts : ℚ) (st' : NodeState) (b : Block) :
    mine_pending H fuel st m ts = some (st', b) ↔
      ∃ last, st.chain.getLast? = some last ∧
        mine H fuel (mkBlock H st.chain.length last.hash st.pending_tx ts 0)
            DIFFICULTY = some b ∧
        st' = mineCommit st m b := by
  constructor
  · intro h
    unfold mine_pending at h
    split at h
    · cases h
    · rename_i last hl
      split at h
      · cases h
      · rename_i b0 hm
        cases h
        exact ⟨last, hl, hm, rfl⟩
  · rintro ⟨last, hl, hm, rfl⟩
    unfold mine_pending
    simp only [hl, hm]
    rfl

theorem handle_new_block_rejected (H : HashInput → String) (st : NodeState)
    (d : Block) (h : newBlockOk H st d = false) :
    handle_new_block H st d = st := by
  unfold handle_new_block
  rw [h]
  rfl

theorem handle_new_block_accepted (H : HashInput → String) (st : NodeState)
    (d : Block) (h : newBlockOk H st d = true) :
    handle_new_block H st d =
      { chain := st.chain ++ [d]
        pending_tx := []
        balances := applyTxs st.balances d.transactions
        total_minted := st.total_minted + mineReward st } := by
  unfold handle_new_block
  rw [h]
  rfl

theorem newBlockOk_true_iff (H : HashInput → String) (st : NodeState) (d : Block) :
    newBlockOk H st d = true ↔
      d.index = st.chain.length ∧
        ∃ last, st.chain.getLast? = some last ∧
          H (canonicalFields d) = d.hash ∧ d.prev_hash = last.hash := by
  unfold newBlockOk is_valid_block
  cases hl : st.chain.getLast? with
  | none => simp
  | some last => simp

/-- The two transports accept exactly the same inbound blocks: the socket
handler's guard (`index` check in the handler plus `is_valid_block`) and the
HTTP binding's `is_valid_block` agree on every state and candidate. -/
theorem newBlockOk_eq_render (H : HashInput → String) (st : NodeState) (d : Block) :
    newBlockOk H st d = is_valid_block_render H st d := by
  unfold newBlockOk is_valid_block is_valid_block_render
  cases hl : st.chain.getLast? with
  | none => simp
  | some last =>
    show (d.index == st.chain.length &&
        (H (canonicalFields d) == d.hash && d.prev_hash == last.hash)) =
      (d.index == st.chain.length &&
        (d.prev_hash == last.hash && H (canonicalFields d) == d.hash))
    rw [Bool.and_comm (H (canonicalFields d) == d.hash) (d.prev_hash == last.hash)]

/-! ### Chain linkage -/

theorem linksFrom_append_iff (p : Block) (t : List Block) (b : Block) :
    linksFrom p (t ++ [b]) = true ↔
      linksFrom p t = true ∧ b.index = (t.getLastD p).index + 1 ∧
        b.prev_hash = (t.getLastD p).hash := by
  induction t generalizing p with
  | nil =>
    simp [linksFrom, List.getLastD]
  | cons c t ih =>
    rw [List.cons_append]
    show (c.index == p.index + 1 && c.prev_hash == p.hash &&
        linksFrom c (t ++ [b])) = true ↔ _
    rw [List.getLastD_cons]
    constructor
    · intro h
      simp only [Bool.and_eq_true, beq_iff_eq] at h
      obtain ⟨⟨h1, h2⟩, h3⟩ := h
      obtain ⟨h4, h5, h6⟩ := (ih c).mp h3
      refine ⟨?_, h5, h6⟩
      show (c.index == p.index + 1 && c.prev_hash == p.hash && linksFrom c t) = true
      simp [h1, h2, h4]
    · rintro ⟨h, h5, h6⟩
      simp only [Bool.and_eq_true, beq_iff_eq] at h ⊢
      have h' : (c.index == p.index + 1 && c.prev_hash == p.hash &&
          linksFrom c t) = true := h
      simp only [Bool.and_eq_true, beq_iff_eq] at h'
      exact ⟨⟨h'.1.1, h'.1.2⟩, (ih c).mpr ⟨h'.2, h5, h6⟩⟩

theorem linksFrom_getLastD_index (p : Block) (t : List Block)
    (h : linksFrom p t = true) : (t.getLastD p).index = p.index + t.length := by
  induction t generalizing p with
  | nil => simp [List.getLastD]
  | cons c t ih =>
    have h' : (c.index == p.index + 1 && c.prev_hash == p.hash &&
        linksFrom c t) = true := h
    simp only [Bool.and_eq_true, beq_iff_eq] at h'
    rw [List.getLastD_cons, ih c h'.2, h'.1.1]
    simp
    omega

theorem getLast?_cons_eq_getLastD (g : Block) (t : List Block) :
    (g :: t).getLast? = some (t.getLastD g) := by
  induction t generalizing g with
  | nil => rfl
  | cons c t ih =>
    rw [List.getLast?_cons_cons, ih c, List.getLastD_cons]

theorem chainLinked_append (c : List Block) (b : Block) (last : Block)
    (h : chainLinked c = true) (hl : c.getLast? = some last)
    (hidx : b.index = c.length) (hprev : b.prev_hash = last.hash) :
    chainLinked (c ++ [b]) = true := by
  cases c with
  | nil => simp [chainLinked] at h
  | cons g t =>
    have h' : (g.index == 0 && g.prev_hash == zeros64 && g.transactions.isEmpty &&
        linksFrom g t) = true := h
    simp only [Bool.and_eq_true, beq_iff_eq] at h'
    obtain ⟨⟨⟨hg0, hgz⟩, hge⟩, hlinks⟩ := h'
    rw [getLast?_cons_eq_getLastD] at hl
    have hlast : last = t.getLastD g := by
      cases hl
      rfl
    show (g.index == 0 && g.prev_hash == zeros64 && g.transactions.isEmpty &&
        linksFrom g (t ++ [b])) = true
    have hidx' : b.index = (t.getLastD g).index + 1 := by
      rw [linksFrom_getLastD_index g t hlinks, hg0, hidx]
      simp
    have hprev' : b.prev_hash = (t.getLastD g).hash := by
      rw [hprev, hlast]
    simp only [Bool.and_eq_true, beq_iff_eq]
    exact ⟨⟨⟨hg0, hgz⟩, hge⟩, (linksFrom_append_iff g t b).mpr ⟨hlinks, hidx', hprev'⟩⟩

/-! ### Frame lemmas for the operations -/

theorem add_transaction_ok_state (st : NodeState) (s r : String) (a : ℚ)
    (st' : NodeState) (h : add_transaction st s r a = Except.ok st') :
    st'.chain = st.chain ∧ st'.balances = st.balances ∧
      st'.total_minted = st.total_minted ∧
      st'.pending_tx = st.pending_tx ++ [⟨s, r, a⟩] := by
  obtain ⟨-, rfl⟩ := (add_transaction_ok_iff st s r a st').mp h
  exact ⟨rfl, rfl, rfl, rfl⟩

theorem handle_new_tx_frame (st : NodeState) (d : Tx) :
    (handle_new_tx st d).chain = st.chain ∧
      (handle_new_tx st d).balances = st.balances ∧
      (handle_new_tx st d).total_minted = st.total_minted := by
  unfold handle_new_tx
  by_cases hc : st.pending_tx.contains d
  · rw [if_pos hc]
    exact ⟨rfl, rfl, rfl⟩
  · rw [if_neg hc]
    cases hadd : add_transaction st d.sender d.recipient d.amount with
    | error e => exact ⟨rfl, rfl, rfl⟩
    | ok st' =>
      obtain ⟨h1, h2, h3, -⟩ := add_transaction_ok_state st _ _ _ st' hadd
      exact ⟨h1, h2, h3⟩

/-! ### Reachability invariants -/

theorem BLOCK_REWARD_pos : (0 : ℚ) < BLOCK_REWARD := by
  norm_num [BLOCK_REWARD]

theorem total_step_bounds (t : ℚ) (h0 : 0 ≤ t) (h1 : t ≤ MAX_SUPPLY) :
    0 ≤ t + min BLOCK_REWARD (MAX_SUPPLY - t) ∧
      t + min BLOCK_REWARD (MAX_SUPPLY - t) ≤ MAX_SUPPLY := by
  constructor
  · have hr : (0 : ℚ) ≤ min BLOCK_REWARD (MAX_SUPPLY - t) :=
      le_min BLOCK_REWARD_pos.le (by linarith)
    linarith
  · have hr := min_le_right BLOCK_REWARD (MAX_SUPPLY - t)
    linarith

theorem reachable_chain_linked (H : HashInput → String) (st : NodeState)
    (h : Reachable H st) : chainLinked st.chain = true := by
  induction h with
  | init ts =>
    show chainLinked [mkBlock H 0 zeros64 [] ts 0] = true
    simp [chainLinked, linksFrom, mkBlock]
  | tx st st' s r a _ hok ih =>
    rw [(add_transaction_ok_state st s r a st' hok).1]
    exact ih
  | newTx st d _ ih =>
    rw [(handle_new_tx_frame st d).1]
    exact ih
  | mined st st' m ts fuel b _ hok ih =>
    obtain ⟨last, hl, hm, rfl⟩ := (mine_pending_some_iff H fuel st m ts st' b).mp hok
    obtain ⟨hbi, hbp, -, -⟩ := mine_canonical_fixed H fuel _ DIFFICULTY b hm
    exact chainLinked_append st.chain b last ih hl hbi (hbp.trans rfl)
  | newBlock st d _ ih =>
    by_cases hok : newBlockOk H st d = true
    · rw [handle_new_block_accepted H st d hok]
      obtain ⟨hidx, last, hl, -, hp⟩ := (newBlockOk_true_iff H st d).mp hok
      exact chainLinked_append st.chain d last ih hl hidx hp
    · rw [handle_new_block_rejected H st d (Bool.eq_false_iff.mpr hok)]
      exact ih

theorem reachable_total_bounds (H : HashInput → String) (st : NodeState)
    (h : Reachable H st) :
    0 ≤ st.total_minted ∧ st.total_minted ≤ MAX_SUPPLY := by
  induction h with
  | init ts =>
    show (0 : ℚ) ≤ 0 ∧ (0 : ℚ) ≤ MAX_SUPPLY
    norm_num [MAX_SUPPLY]
  | tx st st' s r a _ hok ih =>
    rw [(add_transaction_ok_state st s r a st' hok).2.2.1]
    exact ih
  | newTx st d _ ih =>
    rw [(handle_new_tx_frame st d).2.2]
    exact ih
  | mined st st' m ts fuel b _ hok ih =>
    obtain ⟨last, hl, hm, rfl⟩ := (mine_pending_some_iff H fuel st m ts st' b).mp hok
    exact total_step_bounds st.total_minted ih.1 ih.2
  | newBlock st d _ ih =>
    by_cases hok : newBlockOk H st d = true
    · rw [handle_new_block_accepted H st d hok]
      exact total_step_bounds st.total_minted ih.1 ih.2
    · rw [handle_new_block_rejected H st d (Bool.eq_false_iff.mpr hok)]
      exact ih

/-! ### Concrete fixtures

Concrete hash functions used to evaluate the operations on closed inputs:
the abstract digest parameter is instantiated with constant functions whose
output either meets (`Hzero`) or misses (`Hdead`) the difficulty target. -/

/-- A hash function whose every digest is the all-zero string (meets any
difficulty up to 64). -/
def Hzero : HashInput → String := fun _ => zeros64

/-- A hash function whose every digest is `"deadbeef"` (fails the
`DIFFICULTY = 4` leading-zero requirement). -/
def Hdead : HashInput → String := fun _ => "deadbeef"

/-- Genesis-only state under `Hzero`. -/
def st0z : NodeState := initState Hzero 0

/-- Genesis-only state under `Hdead`. -/
def st0d : NodeState := initState Hdead 0

/-- A candidate for height 1 whose declared hash equals its recomputed hash
under `Hzero` and meets the difficulty target. -/
def candZ : Block :=
  { index := 1
    prev_hash := zeros64
    timestamp := 0
    transactions := []
    nonce := 0
    hash := zeros64 }

/-- A second, distinct candidate for the same height 1 (different
timestamp), also internally valid under `Hzero`. -/
def candZ2 : Block :=
  { index := 1
    prev_hash := zeros64
    timestamp := 5
    transactions := []
    nonce := 0
    hash := zeros64 }

/-- A candidate for height 1 whose declared hash equals its recomputed hash
under `Hdead` but has zero leading `'0'` characters. -/
def candD : Block :=
  { index := 1
    prev_hash := "deadbeef"
    timestamp := 0
    transactions := []
    nonce := 0
    hash := "deadbeef" }

/-! ### The claims -/

/-- C1: code bug.  The spec requires `isValidBlock` to reject a candidate
whose recomputed hash matches but lacks `DIFFICULTY` leading hex zeros
(`InsufficientDifficulty`); neither source file's validator tests the
difficulty at all.  Concretely: on a genesis chain, a candidate with the
correct index, the head's hash as `prevHash`, and a correctly recomputed
declared hash that has zero leading `'0'` characters is *accepted* by the
socket binding's guard, by `is_valid_block` itself, and by the HTTP
binding's `is_valid_block`, and the handler appends it to the chain. -/
theorem C1_difficulty_never_checked :
    startsWith0 candD.hash DIFFICULTY = false ∧
    is_valid_block Hdead st0d candD = true ∧
    is_valid_block_render Hdead st0d candD = true ∧
    newBlockOk Hdead st0d candD = true ∧
    (handle_new_block Hdead st0d candD).chain = st0d.chain ++ [candD] := by
  refine ⟨by decide, by decide, by decide, by decide, ?_⟩
  rw [handle_new_block_accepted Hdead st0d candD (by decide)]

/-- C2: counterexample.  The claim says an accepted `NEW_BLOCK` credits the
capped mining reward to the miner's balance "exactly as `minePending` does".
In the source the handler only advances `total_minted`; the inbound block
carries no miner address and *no balance is credited*.  On a genesis state,
accepting the internally valid block `candZ` leaves the balance table
completely unchanged (sum still `0`) while `total_minted` grows by the full
`BLOCK_REWARD`. -/
theorem C2_reward_not_credited :
    newBlockOk Hzero st0z candZ = true ∧
    (handle_new_block Hzero st0z candZ).total_minted = BLOCK_REWARD ∧
    (handle_new_block Hzero st0z candZ).balances = st0z.balances ∧
    balSum (handle_new_block Hzero st0z candZ).balances = 0 := by
  refine ⟨by decide, ?_, ?_, ?_⟩ <;>
    · rw [handle_new_block_accepted Hzero st0z candZ (by decide)]
      decide

/-- C2 (amended): when the guard accepts an inbound block, the handler
appends it, applies its transactions to the ledger (each address moves by
exactly the net flow of the block's transaction list), adds the capped
reward `min(BLOCK_REWARD, MAX_SUPPLY - TotalMinted)` to `TotalMinted`
*without crediting it to any balance* (the balance sum is conserved), and
clears the whole mempool. -/
theorem C2_new_block_effects (H : HashInput → String) (st : NodeState)
    (d : Block) (hacc : newBlockOk H st d = true) :
    (handle_new_block H st d).chain = st.chain ++ [d] ∧
    (handle_new_block H st d).pending_tx = [] ∧
    (handle_new_block H st d).total_minted =
      st.total_minted + min BLOCK_REWARD (MAX_SUPPLY - st.total_minted) ∧
    (∀ a, getBal (handle_new_block H st d).balances a =
      getBal st.balances a + netFlow a d.transactions) ∧
    balSum (handle_new_block H st d).balances = balSum st.balances := by
  rw [handle_new_block_accepted H st d hacc]
  refine ⟨rfl, rfl, rfl, ?_, ?_⟩
  · intro a
    exact getBal_applyTxs st.balances d.transactions a
  · exact balSum_applyTxs st.balances d.transactions

/-- Witness for C2's amended theorem at the concrete accepted block. -/
theorem C2_new_block_effects_witness :
    (handle_new_block Hzero st0z candZ).pending_tx = [] ∧
    balSum (handle_new_block Hzero st0z candZ).balances = balSum st0z.balances :=
  ⟨(C2_new_block_effects Hzero st0z candZ (by decide)).2.1,
    (C2_new_block_effects Hzero st0z candZ (by decide)).2.2.2.2⟩

/-- C3: in `blockchain_render.py` the `Block` class defines no `mine`
method, so `mine_pending` raises `AttributeError` at `block.mine(DIFFICULTY)`
— after reading the chain head and constructing the candidate, before any
mutation of chain, balances, `total_minted` or mempool.  The modelled
operation therefore returns the unchanged state and never a block, for
every state, miner and timestamp; `POST /mine` can never answer with a
mined block. -/
theorem C3_render_mine_always_fails (H : HashInput → String) (st : NodeState)
    (m : String) (ts : ℚ) : mine_pending_render H st m ts = (st, none) := by
  unfold mine_pending_render
  cases st.chain.getLast? <;> rfl

theorem total_step_mono (t : ℚ) (h1 : t ≤ MAX_SUPPLY) :
    t ≤ t + min BLOCK_REWARD (MAX_SUPPLY - t) ∧
      t + min BLOCK_REWARD (MAX_SUPPLY - t) ≤ MAX_SUPPLY := by
  constructor
  · have hr : (0 : ℚ) ≤ min BLOCK_REWARD (MAX_SUPPLY - t) :=
      le_min BLOCK_REWARD_pos.le (by linarith)
    linarith
  · have hr := min_le_right BLOCK_REWARD (MAX_SUPPLY - t)
    linarith

theorem mineCommit_total (st : NodeState) (m : String) (b : Block) :
    (mineCommit st m b).total_minted = st.total_minted + mineReward st := rfl

theorem mineCommit_getBal (st : NodeState) (m : String) (b : Block) :
    getBal (mineCommit st m b).balances m =
      getBal st.balances m + mineReward st + netFlow m st.pending_tx := by
  show getBal (applyTxs (addBal st.balances m (mineReward st)) st.pending_tx) m = _
  rw [getBal_applyTxs, getBal_addBal]
  simp

/-- The block mined on top of a one-block `Hzero` chain. -/
def capBlock : Block := mkBlock Hzero 1 zeros64 [] 0 0

/-- A state two coins short of the supply cap. -/
def stCap : NodeState :=
  { chain := st0z.chain
    pending_tx := []
    balances := []
    total_minted := MAX_SUPPLY - 2 }

/-- A state exactly at the supply cap. -/
def stFull : NodeState :=
  { chain := st0z.chain
    pending_tx := []
    balances := []
    total_minted := MAX_SUPPLY }

/-- C4: `TotalMinted` is monotonically non-decreasing and bounded by
`MAX_SUPPLY` along every reachable state and across each mining and
block-acceptance step; each successful `mine_pending` adds exactly
`min(BLOCK_REWARD, MAX_SUPPLY - TotalMinted)` to `TotalMinted` and credits
the miner that same reward (plus whatever the block's own transactions move
for the miner's address); from `TotalMinted = MAX_SUPPLY - 2` one mine
credits exactly `2` and lands `TotalMinted` exactly on `MAX_SUPPLY`, and
any mine at the cap credits reward `0`. -/
theorem C4_supply_cap :
    (∀ H st, Reachable H st → 0 ≤ st.total_minted ∧ st.total_minted ≤ MAX_SUPPLY) ∧
    (∀ H fuel st m ts st' b, st.total_minted ≤ MAX_SUPPLY →
        mine_pending H fuel st m ts = some (st', b) →
        st.total_minted ≤ st'.total_minted ∧ st'.total_minted ≤ MAX_SUPPLY ∧
        st'.total_minted =
          st.total_minted + min BLOCK_REWARD (MAX_SUPPLY - st.total_minted) ∧
        getBal st'.balances m = getBal st.balances m
          + min BLOCK_REWARD (MAX_SUPPLY - st.total_minted)
          + netFlow m st.pending_tx) ∧
    (∀ H st d, st.total_minted ≤ MAX_SUPPLY →
        st.total_minted ≤ (handle_new_block H st d).total_minted ∧
          (handle_new_block H st d).total_minted ≤ MAX_SUPPLY) ∧
    (∀ H fuel st m ts st' b, st.total_minted = MAX_SUPPLY - 2 →
        mine_pending H fuel st m ts = some (st', b) →
        st'.total_minted = MAX_SUPPLY ∧
        getBal st'.balances m = getBal st.balances m + 2 + netFlow m st.pending_tx) ∧
    (∀ H fuel st m ts st' b, st.total_minted = MAX_SUPPLY →
        mine_pending H fuel st m ts = some (st', b) →
        st'.total_minted = st.total_minted ∧
        getBal st'.balances m = getBal st.balances m + 0 + netFlow m st.pending_tx) := by
  refine ⟨reachable_total_bounds, ?_, ?_, ?_, ?_⟩
  · intro H fuel st m ts st' b hle hok
    obtain ⟨last, hl, hm, rfl⟩ := (mine_pending_some_iff H fuel st m ts st' b).mp hok
    obtain ⟨hmono, hbound⟩ := total_step_mono st.total_minted hle
    exact ⟨hmono, hbound, rfl, mineCommit_getBal st m b⟩
  · intro H st d hle
    by_cases hok : newBlockOk H st d = true
    · rw [handle_new_block_accepted H st d hok]
      exact total_step_mono st.total_minted hle
    · rw [handle_new_block_rejected H st d (Bool.eq_false_iff.mpr hok)]
      exact ⟨le_refl _, hle⟩
  · intro H fuel st m ts st' b htot hok
    obtain ⟨last, hl, hm, rfl⟩ := (mine_pending_some_iff H fuel st m ts st' b).mp hok
    have hrw : mineReward st = 2 := by
      unfold mineReward
      rw [htot, show MAX_SUPPLY - (MAX_SUPPLY - 2) = 2 from by ring]
      exact min_eq_right (by norm_num [BLOCK_REWARD])
    constructor
    · rw [mineCommit_total, hrw, htot]
      ring
    · rw [mineCommit_getBal, hrw]
  · intro H fuel st m ts st' b htot hok
    obtain ⟨last, hl, hm, rfl⟩ := (mine_pending_some_iff H fuel st m ts st' b).mp hok
    have hrw : mineReward st = 0 := by
      unfold mineReward
      rw [htot, show MAX_SUPPLY - MAX_SUPPLY = 0 from by ring]
      exact min_eq_right BLOCK_REWARD_pos.le
    constructor
    · rw [mineCommit_total, hrw]
      ring
    · rw [mineCommit_getBal, hrw]

/-- Witness for C4 at concrete states: the genesis state, a state two short
of the cap and a state at the cap, each mined with `Hzero`. -/
theorem C4_supply_cap_witness :
    (0 ≤ st0z.total_minted ∧ st0z.total_minted ≤ MAX_SUPPLY) ∧
    (mineCommit st0z "A" capBlock).total_minted =
      st0z.total_minted + min BLOCK_REWARD (MAX_SUPPLY - st0z.total_minted) ∧
    (mineCommit stCap "A" capBlock).total_minted = MAX_SUPPLY ∧
    (mineCommit stFull "A" capBlock).total_minted = stFull.total_minted :=
  ⟨C4_supply_cap.1 Hzero st0z (Reachable.init 0),
    (C4_supply_cap.2.1 Hzero 0 st0z "A" 0 (mineCommit st0z "A" capBlock) capBlock
      (by decide) (by decide)).2.2.1,
    (C4_supply_cap.2.2.2.1 Hzero 0 stCap "A" 0 (mineCommit stCap "A" capBlock)
      capBlock (by decide) (by decide)).1,
    (C4_supply_cap.2.2.2.2 Hzero 0 stFull "A" 0 (mineCommit stFull "A" capBlock)
      capBlock (by decide) (by decide)).1⟩

theorem linksFrom_get?_index (p : Block) (t : List Block)
    (h : linksFrom p t = true) (i : Nat) (b : Block)
    (hb : t.get? i = some b) : b.index = p.index + i + 1 := by
  induction t generalizing p i with
  | nil => simp at hb
  | cons c t ih =>
    have h' : (c.index == p.index + 1 && c.prev_hash == p.hash &&
        linksFrom c t) = true := h
    simp only [Bool.and_eq_true, beq_iff_eq] at h'
    cases i with
    | zero =>
      rw [List.get?_cons_zero] at hb
      cases hb
      omega
    | succ i =>
      rw [List.get?_cons_succ] at hb
      have := ih c h'.2 i hb
      omega

theorem linksFrom_get?_link (p : Block) (t : List Block)
    (h : linksFrom p t = true) (i : Nat) (b1 b2 : Block)
    (h1 : t.get? i = some b1) (h2 : t.get? (i + 1) = some b2) :
    b2.prev_hash = b1.hash := by
  induction t generalizing p i with
  | nil => simp at h1
  | cons c t ih =>
    have h' : (c.index == p.index + 1 && c.prev_hash == p.hash &&
        linksFrom c t) = true := h
    simp only [Bool.and_eq_true, beq_iff_eq] at h'
    cases i with
    | zero =>
      rw [List.get?_cons_zero] at h1
      cases h1
      rw [List.get?_cons_succ] at h2
      cases t with
      | nil => simp at h2
      | cons x t2 =>
        rw [List.get?_cons_zero] at h2
        cases h2
        have h'' : (b2.index == b1.index + 1 && b2.prev_hash == b1.hash &&
            linksFrom b2 t2) = true := h'.2
        simp only [Bool.and_eq_true, beq_iff_eq] at h''
        exact h''.1.2
    | succ i =>
      rw [List.get?_cons_succ] at h1 h2
      exact ih c h'.2 i h1 h2

theorem chainLinked_get?_index (c : List Block) (h : chainLinked c = true)
    (i : Nat) (b : Block) (hb : c.get? i = some b) : b.index = i := by
  cases c with
  | nil => simp at hb
  | cons g t =>
    have h' : (g.index == 0 && g.prev_hash == zeros64 && g.transactions.isEmpty &&
        linksFrom g t) = true := h
    simp only [Bool.and_eq_true, beq_iff_eq] at h'
    cases i with
    | zero =>
      rw [List.get?_cons_zero] at hb
      cases hb
      exact h'.1.1.1
    | succ i =>
      rw [List.get?_cons_succ] at hb
      have := linksFrom_get?_index g t h'.2 i b hb
      have hg := h'.1.1.1
      omega

theorem chainLinked_get?_link (c : List Block) (h : chainLinked c = true)
    (i : Nat) (b1 b2 : Block) (h1 : c.get? i = some b1)
    (h2 : c.get? (i + 1) = some b2) : b2.prev_hash = b1.hash := by
  cases c with
  | nil => simp at h1
  | cons g t =>
    have h' : (g.index == 0 && g.prev_hash == zeros64 && g.transactions.isEmpty &&
        linksFrom g t) = true := h
    simp only [Bool.and_eq_true, beq_iff_eq] at h'
    cases i with
    | zero =>
      rw [List.get?_cons_zero] at h1
      cases h1
      rw [List.get?_cons_succ] at h2
      cases t with
      | nil => simp at h2
      | cons x t2 =>
        rw [List.get?_cons_zero] at h2
        cases h2
        have h'' : (b2.index == b1.index + 1 && b2.prev_hash == b1.hash &&
            linksFrom b2 t2) = true := h'.2
        simp only [Bool.and_eq_true, beq_iff_eq] at h''
        exact h''.1.2
    | succ i =>
      rw [List.get?_cons_succ] at h1 h2
      exact linksFrom_get?_link g t h'.2 i b1 b2 h1 h2

theorem chainLinked_genesis (c : List Block) (h : chainLinked c = true)
    (g : Block) (hg : c.get? 0 = some g) :
    g.index = 0 ∧ g.prev_hash = zeros64 ∧ g.transactions = [] := by
  cases c with
  | nil => simp at hg
  | cons g0 t =>
    rw [List.get?_cons_zero] at hg
    cases hg
    have h' : (g.index == 0 && g.prev_hash == zeros64 && g.transactions.isEmpty &&
        linksFrom g t) = true := h
    simp only [Bool.and_eq_true, beq_iff_eq, List.isEmpty_iff] at h'
    exact ⟨h'.1.1.1, h'.1.1.2, h'.1.2⟩

/-- C5: every state reachable from the genesis state satisfies the chain
invariants: the chain is nonempty, `chain[0]` is the genesis block
(`index = 0`, `prevHash` all zeros, no transactions), and every block at
position `i > 0` carries `index = i` and links to its predecessor's stored
hash. -/
theorem C5_chain_invariants (H : HashInput → String) (st : NodeState)
    (h : Reachable H st) :
    st.chain ≠ [] ∧
    (∀ g, st.chain.get? 0 = some g →
        g.index = 0 ∧ g.prev_hash = zeros64 ∧ g.transactions = []) ∧
    (∀ i b, st.chain.get? i = some b → b.index = i) ∧
    (∀ i b1 b2, st.chain.get? i = some b1 → st.chain.get? (i + 1) = some b2 →
        b2.prev_hash = b1.hash) := by
  have hc := reachable_chain_linked H st h
  refine ⟨?_, ?_, ?_, ?_⟩
  · intro hnil
    rw [hnil] at hc
    simp [chainLinked] at hc
  · intro g hg
    exact chainLinked_genesis st.chain hc g hg
  · intro i b hb
    exact chainLinked_get?_index st.chain hc i b hb
  · intro i b1 b2 h1 h2
    exact chainLinked_get?_link st.chain hc i b1 b2 h1 h2

/-- Witness for C5 at the genesis state. -/
theorem C5_chain_invariants_witness : st0z.chain ≠ [] :=
  (C5_chain_invariants Hzero st0z (Reachable.init 0)).1

/-- C6: `add_transaction` fails with `Insufficient balance` exactly when the
sender's committed balance is strictly below the amount; a success is
possible exactly otherwise, and the successful state appends exactly the
transaction `{sender, recipient, amount}` at the end of the mempool while
leaving ledger, chain and `total_minted` untouched. -/
theorem C6_add_transaction_spec (st : NodeState) (s r : String) (a : ℚ) :
    (add_transaction st s r a = Except.error "Insufficient balance" ↔
        getBal st.balances s < a) ∧
    ((∃ st', add_transaction st s r a = Except.ok st') ↔
        ¬ getBal st.balances s < a) ∧
    (∀ st', add_transaction st s r a = Except.ok st' →
        st'.pending_tx = st.pending_tx ++ [⟨s, r, a⟩] ∧
        st'.balances = st.balances ∧ st'.chain = st.chain ∧
        st'.total_minted = st.total_minted) := by
  refine ⟨add_transaction_error_iff st s r a, ?_, ?_⟩
  · constructor
    · rintro ⟨st', hok⟩
      exact ((add_transaction_ok_iff st s r a st').mp hok).1
    · intro hge
      exact ⟨_, (add_transaction_ok_iff st s r a _).mpr ⟨hge, rfl⟩⟩
  · intro st' hok
    obtain ⟨h1, h2, h3, h4⟩ := add_transaction_ok_state st s r a st' hok
    exact ⟨h4, h2, h1, h3⟩

/-- The state reached by submitting the zero-amount transaction `A → B`
from the genesis state (the sender's balance `0` is not below `0`). -/
def stTx : NodeState :=
  { st0z with pending_tx := [⟨"A", "B", 0⟩] }

/-- Witness for C6: on the genesis ledger, `A → B` for `10` is rejected with
insufficient balance, while `A → B` for `0` succeeds and only appends to
the mempool. -/
theorem C6_add_transaction_spec_witness :
    add_transaction st0z "A" "B" 10 = Except.error "Insufficient balance" ∧
    (stTx.pending_tx = st0z.pending_tx ++ [⟨"A", "B", 0⟩] ∧
      stTx.balances = st0z.balances ∧ stTx.chain = st0z.chain ∧
      stTx.total_minted = st0z.total_minted) :=
  ⟨(C6_add_transaction_spec st0z "A" "B" 10).1.mpr (by decide),
    (C6_add_transaction_spec st0z "A" "B" 0).2.2 stTx (by rfl)⟩

/-- C7: same-height race.  If an inbound block is accepted, then any second
block claiming the same index — whatever its other fields — is rejected by
both validators' guards (the index check is the one that fails) and its
handling leaves the whole state unchanged; more generally any rejected
inbound block leaves the state completely unchanged (silent ignore, no
reorg). -/
theorem C7_same_height_race (H : HashInput → String) (st : NodeState)
    (b1 b2 : Block) (h1 : newBlockOk H st b1 = true) (h2 : b2.index = b1.index) :
    handle_new_block H (handle_new_block H st b1) b2 = handle_new_block H st b1 ∧
    newBlockOk H (handle_new_block H st b1) b2 = false ∧
    is_valid_block_render H (handle_new_block H st b1) b2 = false ∧
    b2.index ≠ (handle_new_block H st b1).chain.length ∧
    (∀ st0 d, newBlockOk H st0 d = false → handle_new_block H st0 d = st0) := by
  have hb1 : b1.index = st.chain.length := ((newBlockOk_true_iff H st b1).mp h1).1
  have hlen : (handle_new_block H st b1).chain.length = st.chain.length + 1 := by
    rw [handle_new_block_accepted H st b1 h1]
    simp
  have hne : b2.index ≠ (handle_new_block H st b1).chain.length := by
    rw [hlen, h2, hb1]
    omega
  have hrej : newBlockOk H (handle_new_block H st b1) b2 = false := by
    apply Bool.eq_false_iff.mpr
    intro htrue
    exact hne ((newBlockOk_true_iff H _ b2).mp htrue).1
  refine ⟨?_, hrej, ?_, hne, ?_⟩
  · exact handle_new_block_rejected H _ b2 hrej
  · rw [← newBlockOk_eq_render]
    exact hrej
  · intro st0 d hf
    exact handle_new_block_rejected H st0 d hf

/-- Witness for C7: on the genesis chain under `Hzero`, `candZ` is accepted
and the distinct same-height candidate `candZ2` is then silently ignored. -/
theorem C7_same_height_race_witness :
    handle_new_block Hzero (handle_new_block Hzero st0z candZ) candZ2 =
      handle_new_block Hzero st0z candZ :=
  (C7_same_height_race Hzero st0z candZ candZ2 (by decide) (by decide)).1

/-- C8: whenever the mining loop returns, the resulting block's hash meets
the difficulty target (at least `d` leading `'0'` hex characters); at
difficulty `0` the loop returns immediately with the block unchanged — in
particular the nonce still has its initial value. -/
theorem C8_mine_pow (H : HashInput → String) (fuel : Nat) (b : Block) (d : Nat) :
    (∀ b', mine H fuel b d = some b' → startsWith0 b'.hash d = true) ∧
    mine H fuel b 0 = some b :=
  ⟨fun b' h => mine_some_startsWith0 H fuel b d b' h,
    mine_zero_difficulty H fuel b⟩

/-- Witness for C8 at a concrete block. -/
theorem C8_mine_pow_witness :
    startsWith0 capBlock.hash DIFFICULTY = true ∧
    mine Hdead 5 candD 0 = some candD :=
  ⟨(C8_mine_pow Hzero 0 capBlock DIFFICULTY).1 capBlock (by decide),
    (C8_mine_pow Hdead 5 candD 0).2⟩

/-! ### An injective concrete digest for instantiating the determinism claim -/

def encNatList : List Nat → Nat
  | [] => 0
  | a :: t => Nat.pair a (encNatList t) + 1

theorem encNatList_injective : Function.Injective encNatList := by
  intro xs
  induction xs with
  | nil =>
    intro ys h
    cases ys with
    | nil => rfl
    | cons b u => simp [encNatList] at h
  | cons a t ih =>
    intro ys h
    cases ys with
    | nil => simp [encNatList] at h
    | cons b u =>
      have h' : Nat.pair a (encNatList t) = Nat.pair b (encNatList u) := by
        simp only [encNatList] at h
        omega
      obtain ⟨h1, h2⟩ := Nat.pair_eq_pair.mp h'
      rw [h1, ih h2]

def encChar (c : Char) : Nat := c.toNat

theorem encChar_injective : Function.Injective encChar := by
  intro a b h
  simp only [encChar] at h
  have h2 := congrArg Char.ofNat h
  rwa [Char.ofNat_toNat, Char.ofNat_toNat] at h2

def encStr (s : String) : Nat := encNatList (s.data.map encChar)

theorem encStr_injective : Function.Injective encStr := by
  intro a b h
  have h1 := encNatList_injective h
  have h2 := List.map_injective_iff.mpr encChar_injective h1
  cases a
  cases b
  cases h2
  rfl

def encInt : Int → Nat
  | Int.ofNat n => 2 * n
  | Int.negSucc n => 2 * n + 1

theorem encInt_injective : Function.Injective encInt := by
  intro a b h
  cases a with
  | ofNat n =>
    cases b with
    | ofNat m =>
      simp only [encInt] at h
      have hnm : n = m := by omega
      rw [hnm]
    | negSucc m =>
      simp only [encInt] at h
      exact absurd h (by omega)
  | negSucc n =>
    cases b with
    | ofNat m =>
      simp only [encInt] at h
      exact absurd h (by omega)
    | negSucc m =>
      simp only [encInt] at h
      have hnm : n = m := by omega
      rw [hnm]

def encRat (q : ℚ) : Nat := Nat.pair (encInt q.num) q.den

theorem encRat_injective : Function.Injective encRat := by
  intro a b h
  obtain ⟨h1, h2⟩ := Nat.pair_eq_pair.mp h
  exact Rat.ext (encInt_injective h1) h2

def encTx (tx : Tx) : Nat :=
  Nat.pair (encStr tx.sender) (Nat.pair (encStr tx.recipient) (encRat tx.amount))

theorem encTx_injective : Function.Injective encTx := by
  intro a b h
  obtain ⟨h1, h23⟩ := Nat.pair_eq_pair.mp h
  obtain ⟨h2, h3⟩ := Nat.pair_eq_pair.mp h23
  have hs := encStr_injective h1
  have hr := encStr_injective h2
  have ha := encRat_injective h3
  cases a
  cases b
  cases hs
  cases hr
  cases ha
  rfl

def encInput (i : HashInput) : Nat :=
  Nat.pair i.index (Nat.pair (encStr i.prev_hash) (Nat.pair (encRat i.timestamp)
    (Nat.pair (encNatList (i.transactions.map encTx)) i.nonce)))

theorem encInput_injective : Function.Injective encInput := by
  intro a b h
  obtain ⟨h1, h2345⟩ := Nat.pair_eq_pair.mp h
  obtain ⟨h2, h345⟩ := Nat.pair_eq_pair.mp h2345
  obtain ⟨h3, h45⟩ := Nat.pair_eq_pair.mp h345
  obtain ⟨h4, h5⟩ := Nat.pair_eq_pair.mp h45
  have hp := encStr_injective h2
  have ht := encRat_injective h3
  have htx := List.map_injective_iff.mpr encTx_injective (encNatList_injective h4)
  cases a
  cases b
  cases h1
  cases hp
  cases ht
  cases htx
  cases h5
  rfl

/-- An injective digest function: the canonical content, injectively encoded
into a natural number, written in unary as a string. -/
def Hinj : HashInput → String :=
  fun i => String.mk (List.replicate (encInput i) 'a')

theorem Hinj_injective : Function.Injective Hinj := by
  intro a b h
  simp only [Hinj] at h
  have hd : List.replicate (encInput a) 'a' = List.replicate (encInput b) 'a' :=
    congrArg String.data h
  have hlen := congrArg List.length hd
  rw [List.length_replicate, List.length_replicate] at hlen
  exact encInput_injective hlen

/-- C9: `compute_hash` is a pure function of exactly the five canonical
fields: two blocks agreeing on index, prevHash, timestamp, transactions and
nonce get the same digest under every digest function; and under any
collision-free digest function (the standard idealization of SHA-256 over
the injective sorted-keys JSON encoding), blocks differing in any canonical
field get different digests. -/
theorem C9_compute_hash_deterministic :
    (∀ (H : HashInput → String) (b1 b2 : Block),
        canonicalFields b1 = canonicalFields b2 →
        compute_hash H b1 = compute_hash H b2) ∧
    (∀ (H : HashInput → String), Function.Injective H → ∀ (b1 b2 : Block),
        canonicalFields b1 ≠ canonicalFields b2 →
        compute_hash H b1 ≠ compute_hash H b2) :=
  ⟨fun H _ _ h => congrArg H h,
    fun _ hinj _ _ hne heq => hne (hinj heq)⟩

/-- Witness for C9: changing only the stored (non-canonical) `hash`
attribute leaves the digest unchanged; changing the timestamp changes the
digest under the injective digest `Hinj`. -/
theorem C9_compute_hash_deterministic_witness :
    compute_hash Hinj candZ = compute_hash Hinj { candZ with hash := "xyz" } ∧
    compute_hash Hinj candZ ≠ compute_hash Hinj candZ2 :=
  ⟨C9_compute_hash_deterministic.1 Hinj candZ { candZ with hash := "xyz" } rfl,
    C9_compute_hash_deterministic.2 Hinj Hinj_injective candZ candZ2 (by decide)⟩

/-- C10: from the genesis state (all balances `0`, `TotalMinted = 0`) the
sum of all ledger balances equals `TotalMinted`, and this equality is
preserved by every successful `add_transaction` (which does not touch the
ledger) and every successful `mine_pending` (each transaction debits and
credits equal amounts; the capped reward lands in both the miner's balance
and the counter). -/
theorem C10_ledger_conservation :
    (∀ H ts, balSum (initState H ts).balances = (initState H ts).total_minted) ∧
    (∀ st s r a st', balSum st.balances = st.total_minted →
        add_transaction st s r a = Except.ok st' →
        balSum st'.balances = st'.total_minted) ∧
    (∀ H fuel st m ts st' b, balSum st.balances = st.total_minted →
        mine_pending H fuel st m ts = some (st', b) →
        balSum st'.balances = st'.total_minted) := by
  refine ⟨fun H ts => rfl, ?_, ?_⟩
  · intro st s r a st' hinv hok
    obtain ⟨-, hb, ht, -⟩ := add_transaction_ok_state st s r a st' hok
    rw [hb, ht]
    exact hinv
  · intro H fuel st m ts st' b hinv hok
    obtain ⟨last, hl, hm, rfl⟩ := (mine_pending_some_iff H fuel st m ts st' b).mp hok
    show balSum (applyTxs (addBal st.balances m (mineReward st)) st.pending_tx) =
      st.total_minted + mineReward st
    rw [balSum_applyTxs, balSum_addBal, hinv]

/-- Witness for C10 at the genesis state, a submitted transaction and a
mined block. -/
theorem C10_ledger_conservation_witness :
    balSum (initState Hzero 0).balances = (initState Hzero 0).total_minted ∧
    balSum stTx.balances = stTx.total_minted ∧
    balSum (mineCommit st0z "A" capBlock).balances =
      (mineCommit st0z "A" capBlock).total_minted :=
  ⟨C10_ledger_conservation.1 Hzero 0,
    C10_ledger_conservation.2.1 st0z "A" "B" 0 stTx (by rfl) (by rfl),
    C10_ledger_conservation.2.2 Hzero 0 st0z "A" 0 (mineCommit st0z "A" capBlock)
      capBlock (by rfl) (by decide)⟩
